import Mathlib

/-!
Verification of the Franklin AsciiDoc-to-HTML converter
(`src/worker/src/routes/docs.ts`, `adoc2html` part).

Strings are modelled by Lean `String`/`List Char`; the JavaScript string
primitives used by the source (`endsWith`, `slice`, `toLowerCase`,
`startsWith`, `trim`, `Array.prototype.join`) are given explicit
executable models below.  The external collaborators (the `Book.resolve`
path resolver and the `toClassName` normalizer imported from `./string`,
both outside the converter source) are passed in as function parameters.
-/

/-- Model of JavaScript `String.prototype.endsWith`. -/
def jsEndsWith (s t : String) : Bool :=
  t.data.isSuffixOf s.data

/-- Model of JavaScript `String.prototype.startsWith`. -/
def jsStartsWith (s t : String) : Bool :=
  t.data.isPrefixOf s.data

/-- Model of JavaScript `s.slice(0, -n)`: drop the last `n` characters. -/
def jsDropRight (s : String) (n : Nat) : String :=
  String.mk (s.data.take (s.data.length - n))

/-- Model of JavaScript `String.prototype.toLowerCase` (basic-latin letters,
which is all the converter relies on). -/
def jsToLowerCase (s : String) : String :=
  String.mk (s.data.map Char.toLower)

/-- Model of JavaScript `Array.prototype.join(sep)`. -/
def joinSep (sep : String) : List String → String
  | [] => ""
  | [s] => s
  | s :: rest => s ++ sep ++ joinSep sep rest

/-- The whitespace characters relevant to JavaScript `trim` here. -/
def isJsSpace (c : Char) : Bool :=
  c == ' ' || c == '\n' || c == '\t' || c == '\r'

/-- Model of JavaScript `String.prototype.trim`. -/
def jsTrim (s : String) : String :=
  String.mk (((s.data.dropWhile isJsSpace).reverse.dropWhile isJsSpace).reverse)

/-- Emit a pending maximal run of `k` hyphens: a run of three or more is
collapsed to exactly two, shorter runs are kept as they are. -/
def emitRun (k : Nat) : List Char :=
  if 3 ≤ k then ['-', '-'] else List.replicate k '-'

/-- Scanner for the hyphen-run replacement: `k` counts the hyphens read
immediately before the current position. -/
def collapseRunsAux : Nat → List Char → List Char
  | k, [] => emitRun k
  | k, c :: rest =>
    if c == '-' then collapseRunsAux (k + 1) rest
    else emitRun k ++ c :: collapseRunsAux 0 rest

/-- Model of the hostname `replace` with the global hyphen-run regex
(three-or-more hyphens, replacement `--`) on the character list:
every maximal run of three or more hyphens is collapsed to exactly two;
runs of one or two hyphens are left alone (docs.ts line 156). -/
def collapseRuns (l : List Char) : List Char :=
  collapseRunsAux 0 l

/-- The hostname normalization of docs.ts line 156: collapse hyphen runs
with `collapseRuns`, then `toLowerCase()`. -/
def normalizeHostname (s : String) : String :=
  jsToLowerCase (String.mk (collapseRuns s.data))

/-- Model of a parsed WHATWG URL, restricted to the absolute `http(s)`
URLs the converter feeds to `new URL` in the claims under study. -/
structure URLModel where
  scheme : String
  host : String
  path : String

/-- Split the part of an absolute URL after `scheme://` into hostname and
path (the hostname ends at the first `/`; a missing path serializes
as `/`, as in the WHATWG URL class). An empty hostname fails to parse. -/
def parseURLRest (scheme rest : String) : Option URLModel :=
  let host := String.mk (rest.data.takeWhile (fun c => c != '/'))
  let path := String.mk (rest.data.dropWhile (fun c => c != '/'))
  if host = "" then none
  else some ⟨scheme, host, if path = "" then "/" else path⟩

/-- Model of the WHATWG `new URL(href)` constructor for the absolute
`http(s)` targets exercised by the converter; any other shape is a parse
failure (the `catch` branch of docs.ts lines 154-160). -/
def parseURL (s : String) : Option URLModel :=
  if jsStartsWith s "http://" then parseURLRest "http" (String.mk (s.data.drop 7))
  else if jsStartsWith s "https://" then parseURLRest "https" (String.mk (s.data.drop 8))
  else none

/-- Model of `url.toString()` for the URLs above. -/
def urlToString (u : URLModel) : String :=
  u.scheme ++ "://" ++ u.host ++ u.path

/-- The variant string of a block: `variants.map(toClassName).join(' ')`
(docs.ts line 326). `tcn` is the external `toClassName` normalizer. -/
def blockVariantStr (tcn : String → String) (variants : List String) : String :=
  joinSep " " (variants.map tcn)

/-- The `class` attribute of a block:
`${toClassName(name)}${variantStr ? ` ${variantStr}` : ''}` (docs.ts line 328). -/
def blockClassAttr (tcn : String → String) (name : String) (variants : List String) : String :=
  tcn name ++ (if blockVariantStr tcn variants = "" then "" else " " ++ blockVariantStr tcn variants)

/-- Model of `FranklinConverter.makeBlock` (docs.ts lines 325-331). -/
def makeBlock (tcn : String → String) (name content : String)
    (variants : List String) (singleCell : Bool) : String :=
  "\n      <div class=\"" ++ blockClassAttr tcn name variants ++ "\">\n        "
    ++ (if singleCell then "<div><div>\n" else "")
    ++ jsTrim content
    ++ (if singleCell then "\n</div></div>" else "")
    ++ "\n      </div>"

/-- The fields of an inline-anchor node that the `inline_anchor` template
reads: `getTarget()`, `getRole()`, `getText()`. -/
structure InlineAnchorNode where
  target : String
  role : String
  text : String

/-- Model of the `inline_anchor` template (docs.ts lines 144-178).
`resolve` is the external `book.resolve` and `topicDirPath` the
converter's topic directory; `tcn` is the external `toClassName`. -/
def inline_anchor (resolve : String → String) (topicDirPath : String)
    (tcn : String → String) (node : InlineAnchorNode) : String :=
  let href0 := node.target
  let isInclude := node.role == "bare include"
  let variants := if isInclude then ["include"] else []
  let href1 :=
    if href0 ≠ "" then
      let h := if jsEndsWith href0 ".franklin" then jsDropRight href0 9 else href0
      match parseURL h with
      | some u => urlToString { u with host := normalizeHostname u.host }
      | none => h
    else href0
  if isInclude then
    let href2 := if jsEndsWith href1 ".adoc" then jsDropRight href1 5 else href1
    let hv :=
      if jsStartsWith href2 "http://" || jsStartsWith href2 "https://" then
        (href2, variants)
      else
        (resolve (topicDirPath ++ "/" ++ href2), variants ++ ["docs"])
    makeBlock tcn "fragment" ("<a href=\"" ++ hv.1 ++ "\">" ++ node.text ++ "</a>") hv.2 true
  else
    "<a href=\"" ++ href1 ++ "\">" ++ node.text ++ "</a>"

/-- C1 (counterexample): on the target `https://Example.com/a---b.franklin`
with a non-include role, the rendered anchor's href is NOT the claimed
`https://example.com/a--b`: the triple hyphen sits in the URL path, and
the collapsing regex is applied to the hostname only. -/
theorem inline_anchor_counterexample_c1 :
    inline_anchor (fun s => s) "" (fun s => s)
        ⟨"https://Example.com/a---b.franklin", "", "x"⟩
      ≠ "<a href=\"https://example.com/a--b\">x</a>" := by
  decide

/-- C1 (amended): for a non-include inline-anchor node with target
`https://Example.com/a---b.franklin`, the renderer returns an anchor whose
href is exactly `https://example.com/a---b`: the `.franklin` suffix is
stripped and the hostname is lowercased, but the run of three hyphens lies
in the path, which hostname normalization does not touch, so it is kept. -/
theorem inline_anchor_amended_c1 :
    inline_anchor (fun s => s) "" (fun s => s)
        ⟨"https://Example.com/a---b.franklin", "", "x"⟩
      = "<a href=\"https://example.com/a---b\">x</a>" := by
  decide

/-- C10: a non-include inline-anchor node with an empty (or absent) target
skips suffix stripping and URL normalization and renders an anchor with an
empty href and the node's text, raising no error (the renderer is total). -/
theorem inline_anchor_empty_target_c10
    (resolve : String → String) (topicDirPath : String) (tcn : String → String)
    (role text : String) (h : role ≠ "bare include") :
    inline_anchor resolve topicDirPath tcn ⟨"", role, text⟩
      = "<a href=\"\">" ++ text ++ "</a>" := by
  have hrole : (role == "bare include") = false := by
    exact beq_false_of_ne h
  simp only [inline_anchor, hrole]
  rfl

/-- C10 witness: the theorem applied at a concrete non-include node. -/
theorem inline_anchor_empty_target_c10_witness :
    inline_anchor (fun s => s) "" (fun s => s) ⟨"", "x", "t"⟩
      = "<a href=\"\">t</a>" :=
  inline_anchor_empty_target_c10 (fun s => s) "" (fun s => s) "x" "t" (by decide)

/-! ### Idempotence of the hostname normalization (claim C7) -/

/-- Packing a small codepoint and unpacking it round-trips. -/
theorem char_toNat_ofNat_lt {m : Nat} (h : m < 55296) : (Char.ofNat m).toNat = m := by
  rw [Char.ofNat, dif_pos (Or.inl h)]
  simp [Char.ofNatAux, Char.toNat, UInt32.toNat]

theorem toLower_of_upper {c : Char} (h : 65 ≤ c.toNat ∧ c.toNat ≤ 90) :
    Char.toLower c = Char.ofNat (c.toNat + 32) := by
  simp only [Char.toLower]
  exact if_pos h

theorem toLower_of_not_upper {c : Char} (h : ¬(65 ≤ c.toNat ∧ c.toNat ≤ 90)) :
    Char.toLower c = c := by
  simp only [Char.toLower]
  exact if_neg h

/-- `Char.toLower` is idempotent. -/
theorem toLower_toLower (c : Char) : (Char.toLower c).toLower = Char.toLower c := by
  by_cases h : 65 ≤ c.toNat ∧ c.toNat ≤ 90
  · have h2 : (Char.toLower c).toNat = c.toNat + 32 := by
      rw [toLower_of_upper h, char_toNat_ofNat_lt (by omega)]
    apply toLower_of_not_upper
    omega
  · rw [toLower_of_not_upper h, toLower_of_not_upper h]

/-- Lowercasing maps a character to the hyphen only if it was the hyphen. -/
theorem toLower_eq_hyphen_iff (c : Char) : Char.toLower c = '-' ↔ c = '-' := by
  constructor
  · intro hl
    by_cases h : 65 ≤ c.toNat ∧ c.toNat ≤ 90
    · exfalso
      have h2 : (Char.toLower c).toNat = c.toNat + 32 := by
        rw [toLower_of_upper h, char_toNat_ofNat_lt (by omega)]
      rw [hl] at h2
      have : ('-').toNat = 45 := by decide
      omega
    · rwa [toLower_of_not_upper h] at hl
  · intro he
    subst he
    decide

theorem toLower_beq_hyphen (c : Char) : (Char.toLower c == '-') = (c == '-') := by
  by_cases hc : c = '-'
  · subst hc; rfl
  · have h1 : ¬ Char.toLower c = '-' := fun h => hc ((toLower_eq_hyphen_iff c).mp h)
    simp [hc, h1]

/-- Is there a run of three consecutive hyphens anywhere in the list? -/
def hasTriple : List Char → Bool
  | a :: b :: c :: rest => (a == '-' && b == '-' && c == '-') || hasTriple (b :: c :: rest)
  | _ => false

theorem hasTriple_tail {c : Char} {l : List Char} (h : hasTriple (c :: l) = false) :
    hasTriple l = false := by
  match l with
  | [] => rfl
  | [x] => rfl
  | x :: y :: r =>
    rw [hasTriple] at h
    exact (Bool.or_eq_false_iff.mp h).2

theorem hasTriple_append_right {l₁ l₂ : List Char} (h : hasTriple (l₁ ++ l₂) = false) :
    hasTriple l₂ = false := by
  induction l₁ with
  | nil => exact h
  | cons c l ih => exact ih (hasTriple_tail h)

theorem hasTriple_cons_ne {c : Char} (hc : (c == '-') = false) (l : List Char) :
    hasTriple (c :: l) = hasTriple l := by
  match l with
  | [] => rfl
  | [x] => rfl
  | x :: y :: r => rw [hasTriple, hc]; simp

theorem hasTriple_one_hyph_cons {c : Char} (hc : (c == '-') = false) (l : List Char) :
    hasTriple ('-' :: c :: l) = hasTriple (c :: l) := by
  match l with
  | [] => rfl
  | x :: r => rw [hasTriple, hc]; simp

theorem hasTriple_two_hyph_cons {c : Char} (hc : (c == '-') = false) (l : List Char) :
    hasTriple ('-' :: '-' :: c :: l) = hasTriple (c :: l) := by
  rw [hasTriple, hc]
  simp
  exact hasTriple_one_hyph_cons hc l

theorem hasTriple_replicate_ge {k : Nat} (h : 3 ≤ k) (l : List Char) :
    hasTriple (List.replicate k '-' ++ l) = true := by
  obtain ⟨m, rfl⟩ : ∃ m, k = m + 3 := ⟨k - 3, by omega⟩
  rw [show m + 3 = (m + 2) + 1 from rfl, List.replicate_succ,
    show m + 2 = (m + 1) + 1 from rfl, List.replicate_succ, List.replicate_succ]
  rw [List.cons_append, List.cons_append, List.cons_append, hasTriple]
  simp

/-- The scanner never emits three consecutive hyphens. -/
theorem hasTriple_collapseRunsAux (l : List Char) : ∀ k, hasTriple (collapseRunsAux k l) = false := by
  induction l with
  | nil =>
    intro k
    rw [collapseRunsAux, emitRun]
    by_cases h3 : 3 ≤ k
    · rw [if_pos h3]; rfl
    · rw [if_neg h3]
      match k, h3 with
      | 0, _ => rfl
      | 1, _ => rfl
      | 2, _ => rfl
      | n + 3, h3 => exact absurd (Nat.le_add_left 3 n) h3
  | cons c rest ih =>
    intro k
    rw [collapseRunsAux]
    cases hc : (c == '-') with
    | true => rw [if_pos rfl]; exact ih (k + 1)
    | false =>
      rw [if_neg (by simp [hc])]
      rw [emitRun]
      by_cases h3 : 3 ≤ k
      · rw [if_pos h3]
        rw [show (['-', '-'] : List Char) ++ c :: collapseRunsAux 0 rest
            = '-' :: '-' :: c :: collapseRunsAux 0 rest from rfl]
        rw [hasTriple_two_hyph_cons hc, hasTriple_cons_ne hc]
        exact ih 0
      · rw [if_neg h3]
        match k, h3 with
        | 0, _ =>
          rw [List.replicate, List.nil_append, hasTriple_cons_ne hc]
          exact ih 0
        | 1, _ =>
          rw [show List.replicate 1 '-' ++ c :: collapseRunsAux 0 rest
              = '-' :: c :: collapseRunsAux 0 rest from rfl]
          rw [hasTriple_one_hyph_cons hc, hasTriple_cons_ne hc]
          exact ih 0
        | 2, _ =>
          rw [show List.replicate 2 '-' ++ c :: collapseRunsAux 0 rest
              = '-' :: '-' :: c :: collapseRunsAux 0 rest from rfl]
          rw [hasTriple_two_hyph_cons hc, hasTriple_cons_ne hc]
          exact ih 0
        | n + 3, h3 => exact absurd (Nat.le_add_left 3 n) h3

/-- On input without triple hyphen runs the scanner is the identity. -/
theorem collapseRunsAux_of_noTriple (l : List Char) :
    ∀ k, hasTriple (List.replicate k '-' ++ l) = false →
      collapseRunsAux k l = List.replicate k '-' ++ l := by
  induction l with
  | nil =>
    intro k h
    rw [collapseRunsAux, emitRun, List.append_nil]
    rw [if_neg]
    intro h3
    rw [hasTriple_replicate_ge h3] at h
    exact Bool.true_eq_false.mp h
  | cons c rest ih =>
    intro k h
    rw [collapseRunsAux]
    cases hc : (c == '-') with
    | true =>
      rw [if_pos rfl]
      have hc' : c = '-' := by simpa using hc
      subst hc'
      have hrepl : List.replicate k '-' ++ '-' :: rest = List.replicate (k + 1) '-' ++ rest := by
        rw [List.replicate_succ']
        simp
      rw [hrepl] at h ⊢
      exact ih (k + 1) h
    | false =>
      rw [if_neg (by simp [hc])]
      have hk : ¬ 3 ≤ k := by
        intro h3
        rw [hasTriple_replicate_ge h3] at h
        exact Bool.true_eq_false.mp h
      have hrest : hasTriple rest = false := by
        have := hasTriple_append_right h
        exact hasTriple_tail this
      rw [emitRun, if_neg hk]
      rw [ih 0 (by simpa using hrest)]
      simp

theorem toLower_hyph : Char.toLower '-' = '-' := by decide

theorem map_toLower_emitRun (k : Nat) : (emitRun k).map Char.toLower = emitRun k := by
  rw [emitRun]
  by_cases h3 : 3 ≤ k
  · rw [if_pos h3]; decide
  · rw [if_neg h3, List.map_replicate, toLower_hyph]

/-- The scanner commutes with lowercasing. -/
theorem collapseRunsAux_map_toLower (l : List Char) :
    ∀ k, collapseRunsAux k (l.map Char.toLower) = (collapseRunsAux k l).map Char.toLower := by
  induction l with
  | nil =>
    intro k
    rw [List.map_nil, collapseRunsAux]
    exact (map_toLower_emitRun k).symm
  | cons c rest ih =>
    intro k
    simp only [List.map_cons, collapseRunsAux]
    rw [toLower_beq_hyphen]
    cases hc : (c == '-') with
    | true =>
      rw [if_pos rfl, if_pos rfl]
      exact ih (k + 1)
    | false =>
      rw [if_neg (fun hcontra => Bool.noConfusion hcontra),
        if_neg (fun hcontra => Bool.noConfusion hcontra)]
      rw [List.map_append, List.map_cons, ih 0, map_toLower_emitRun]

theorem map_toLower_toLower (l : List Char) :
    (l.map Char.toLower).map Char.toLower = l.map Char.toLower := by
  induction l with
  | nil => rfl
  | cons c rest ih => simp [toLower_toLower, ih]

/-- C7: the hostname normalization of the inline_anchor renderer (collapse
every run of three or more hyphens to exactly two, then lowercase) is
idempotent: applying it twice yields the same string as applying it once. -/
theorem normalizeHostname_idempotent_c7 (s : String) :
    normalizeHostname (normalizeHostname s) = normalizeHostname s := by
  show String.mk _ = String.mk _
  have hdata : (normalizeHostname s).data = (collapseRuns s.data).map Char.toLower := rfl
  congr 1
  rw [hdata]
  rw [show collapseRuns ((collapseRuns s.data).map Char.toLower)
      = collapseRunsAux 0 ((collapseRunsAux 0 s.data).map Char.toLower) from rfl]
  rw [collapseRunsAux_map_toLower]
  rw [collapseRunsAux_of_noTriple _ 0 (by simpa using hasTriple_collapseRunsAux s.data 0)]
  rw [List.replicate, List.nil_append]
  exact map_toLower_toLower _

/-! ### List items (claim C2) -/

/-- Model of the `list_item` template (docs.ts lines 281-297). `text` is
`node.getText()`, `baseContent` is `node.getContent()`, and `blockContents`
are the results of `node.getBlocks().map((block) => this.convert(block))`. -/
def list_item (text baseContent : String) (blockContents : List String) : String :=
  if text = "" ∧ baseContent = "" then ""
  else
    let content0 := joinSep "" blockContents
    let content := if content0 = "" then baseContent else content0
    "<li>" ++ (if text = "" then "" else "<p>" ++ text ++ "</p>" ++ content) ++ "</li>"

/-- C2 (counterexample): a list item with empty inline text but non-empty
pre-rendered content yields the bare `<li></li>` — the content is dropped and
in particular is not contained in the output, contrary to the claim. -/
theorem list_item_counterexample_c2 :
    list_item "" "<p>x</p>" [] = "<li></li>" ∧
      ¬ ("<p>x</p>".data <:+: (list_item "" "<p>x</p>" []).data) := by
  constructor
  · rfl
  · decide

/-- C2 (amended): a list item with neither inline text nor base content
renders as the empty string; one with non-empty inline text renders a single
`<li>` holding the text as a leading `<p>` followed by the joined converted
block content (or the base content when the blocks render empty); one with
empty inline text but non-empty base content renders an empty `<li></li>`,
dropping its content. -/
theorem list_item_amended_c2 (text baseContent : String) (blockContents : List String) :
    (text = "" ∧ baseContent = "" → list_item text baseContent blockContents = "") ∧
    (text ≠ "" →
      list_item text baseContent blockContents
        = "<li>" ++ ("<p>" ++ text ++ "</p>"
            ++ (if joinSep "" blockContents = "" then baseContent else joinSep "" blockContents))
            ++ "</li>") ∧
    (text = "" → baseContent ≠ "" →
      list_item text baseContent blockContents = "<li></li>") := by
  refine ⟨?_, ?_, ?_⟩
  · intro h
    simp [list_item, h.1, h.2]
  · intro h
    rw [list_item, if_neg (fun hh => h hh.1)]
    simp only [if_neg h]
  · intro h1 h2
    subst h1
    rw [list_item, if_neg (fun hh => h2 hh.2)]
    rfl

/-- C2 witness: the amended theorem applied at a concrete item with text. -/
theorem list_item_amended_c2_witness :
    list_item "t" "b" []
      = "<li>" ++ ("<p>" ++ "t" ++ "</p>"
          ++ (if joinSep "" ([] : List String) = "" then "b" else joinSep "" [])) ++ "</li>" :=
  (list_item_amended_c2 "t" "b" []).2.1 (by decide)

/-! ### Ordered lists (claim C5) -/

/-- The bare ordered-list markup of the `olist` template: the joined item
conversions wrapped in `<ol>`, or the empty string when nothing rendered
(docs.ts lines 272-274). -/
def olistList (blockContents : List String) : String :=
  if joinSep "" blockContents = "" then "" else "<ol>" ++ joinSep "" blockContents ++ "</ol>"

/-- Model of the `olist` template (docs.ts lines 271-280). `role` is
`node.getAttribute('role')` (empty string when the attribute is absent). -/
def olist (tcn : String → String) (role : String) (blockContents : List String) : String :=
  if role ≠ "procedure" then olistList blockContents
  else makeBlock tcn "procedure" (olistList blockContents) [] true

/-- C5: an ordered list with role `procedure` renders as the list wrapped in
a single-cell `procedure` block; with any other (or absent) role it renders
as the bare `<ol>` list — or the empty string when no item renders — and is
never wrapped. -/
theorem olist_procedure_c5 (tcn : String → String) (role : String) (blockContents : List String) :
    (role = "procedure" →
      olist tcn role blockContents = makeBlock tcn "procedure" (olistList blockContents) [] true) ∧
    (role ≠ "procedure" →
      olist tcn role blockContents = olistList blockContents ∧
      (olistList blockContents = ""
        ∨ olistList blockContents = "<ol>" ++ joinSep "" blockContents ++ "</ol>")) := by
  constructor
  · intro h
    simp [olist, h]
  · intro h
    refine ⟨by simp [olist, h], ?_⟩
    rw [olistList]
    by_cases hj : joinSep "" blockContents = ""
    · exact Or.inl (by rw [if_pos hj])
    · exact Or.inr (by rw [if_neg hj])

/-- C5 witness: the theorem applied at a concrete procedure-role list. -/
theorem olist_procedure_c5_witness :
    olist (fun s => s) "procedure" ["<li>a</li>"]
      = makeBlock (fun s => s) "procedure" (olistList ["<li>a</li>"]) [] true :=
  (olist_procedure_c5 (fun s => s) "procedure" ["<li>a</li>"]).1 rfl

/-! ### The node dispatcher (claim C4) -/

/-- The effective kind of a node in `convert`:
`const name = transform || node.getNodeName()` (docs.ts line 366). -/
def effectiveName (nodeName : String) (transform : Option String) : String :=
  match transform with
  | some t => if t = "" then nodeName else t
  | none => nodeName

/-- Model of `FranklinConverter.convert` (docs.ts lines 365-383). The
renderer registry is modelled as a lookup into `templates`: `none` means no
renderer is registered under the name; `some none` means a registered
renderer returned null; `some (some content)` means the renderer produced
`content`. `baseOutput` is the external base (html5) converter's output for
the node; the `console` logging is side-effect-only and not modelled. The
model is a total function: dispatch never raises. -/
def convertDispatch (templates : String → Option (Option String)) (baseOutput : String)
    (nodeName : String) (transform : Option String) : String :=
  match templates (effectiveName nodeName transform) with
  | some (some content) => content
  | some none => baseOutput
  | none => baseOutput

/-- C4: for a node whose effective kind (transform override, else the node's
own kind name) has no entry in the renderer registry, `convert` returns
exactly the base converter's output, unchanged — and, being a total
function, raises nothing. -/
theorem convertDispatch_fallback_c4 (templates : String → Option (Option String))
    (baseOutput nodeName : String) (transform : Option String)
    (h : templates (effectiveName nodeName transform) = none) :
    convertDispatch templates baseOutput nodeName transform = baseOutput := by
  rw [convertDispatch, h]

/-- C4 witness: a registry with no entries falls back on a concrete node. -/
theorem convertDispatch_fallback_c4_witness :
    convertDispatch (fun _ => none) "<audio></audio>" "audio" none = "<audio></audio>" :=
  convertDispatch_fallback_c4 (fun _ => none) "<audio></audio>" "audio" none rfl

/-! ### Tables (claims C6 and C9) -/

/-- `processCols` of `tableToBlock` (docs.ts lines 340-342): each cell's
rendered content wrapped in a `<div>`, joined without separator. -/
def processCols (cols : List String) : String :=
  joinSep "" (cols.map (fun c => "<div>" ++ c ++ "</div>"))

/-- `processRows` of `tableToBlock` (docs.ts lines 344-346): each row's
columns wrapped in a `<div>`, joined with newlines. -/
def processRows (rows : List (List String)) : String :=
  joinSep "\n" (rows.map (fun r => "<div>" ++ processCols r ++ "</div>"))

/-- The `content` template string of `tableToBlock` (docs.ts lines 348-351). -/
def tableContent (head body foot : List (List String)) : String :=
  "\n    " ++ processRows head ++ "\n    " ++ processRows body ++ "\n    " ++ processRows foot

/-- The variant list of `tableToBlock` (docs.ts line 353):
`head.length === 0 ? ['headless'] : ['']`. -/
def tableToBlockVariants (head : List (List String)) : List String :=
  if head.length = 0 then ["headless"] else [""]

/-- Model of `FranklinConverter.tableToBlock` (docs.ts lines 337-355); a
table node is represented by its `getRows()` matrices of rendered cell
contents. -/
def tableToBlock (tcn : String → String) (name : String)
    (head body foot : List (List String)) : String :=
  makeBlock tcn name (tableContent head body foot) (tableToBlockVariants head) false

/-- Model of `FranklinConverter.tableToTableBlock` (docs.ts lines 333-335). -/
def tableToTableBlock (tcn : String → String) (head body foot : List (List String)) : String :=
  tableToBlock tcn "table" head body foot

/-- Model of the `table` template (docs.ts lines 307-321). `title` is
`node.getTitle()` and `head` is `node.getHeadRows()`. -/
def tableTemplate (tcn : String → String) (title : String)
    (head body foot : List (List String)) : String :=
  if title ≠ "" ∧ head.length = 0 then
    if tableToBlock tcn title head body foot ≠ "" then tableToBlock tcn title head body foot
    else tableToTableBlock tcn head body foot
  else tableToTableBlock tcn head body foot

/-- Split a character list at every space: the class list of a `class`
attribute value. -/
def splitSp : List Char → List (List Char)
  | [] => [[]]
  | c :: rest =>
    if c == ' ' then [] :: splitSp rest
    else
      match splitSp rest with
      | [] => [[c]]
      | w :: ws => (c :: w) :: ws

theorem splitSp_no_space {l : List Char} (h : (' ' : Char) ∉ l) : splitSp l = [l] := by
  induction l with
  | nil => rfl
  | cons c rest ih =>
    have hc : (c == ' ') = false := by
      simp only [beq_eq_false_iff_ne, ne_eq]
      intro hcc
      exact h (hcc ▸ List.mem_cons_self c rest)
    rw [splitSp, if_neg (by simp [hc])]
    rw [ih (fun hm => h (List.mem_cons_of_mem c hm))]

theorem splitSp_append_space {a : List Char} (b : List Char) (h : (' ' : Char) ∉ a) :
    splitSp (a ++ ' ' :: b) = a :: splitSp b := by
  induction a with
  | nil =>
    rw [List.nil_append]
    rfl
  | cons c a ih =>
    have hc : (c == ' ') = false := by
      simp only [beq_eq_false_iff_ne, ne_eq]
      intro hcc
      exact h (hcc ▸ List.mem_cons_self c a)
    rw [List.cons_append, splitSp, if_neg (by simp [hc])]
    rw [ih (fun hm => h (List.mem_cons_of_mem c hm))]

/-- `data` distributes over string concatenation. -/
theorem strData_append (a b : String) : (a ++ b).data = a.data ++ b.data := rfl

theorem string_eq_of_data_eq {a b : String} (h : a.data = b.data) : a = b := by
  cases a
  cases b
  exact congrArg String.mk h

/-- A block produced by `makeBlock` is never the empty string. -/
theorem makeBlock_ne_empty (tcn : String → String) (name content : String)
    (variants : List String) (singleCell : Bool) :
    makeBlock tcn name content variants singleCell ≠ "" := by
  intro h
  have hd := congrArg String.data h
  rw [makeBlock] at hd
  simp only [strData_append, List.cons_append] at hd
  exact List.noConfusion hd

/-- C6: a table rendered through the generic grid path `tableToBlock`
carries the `headless` variant in its block class list exactly when it has
zero head rows. The hypotheses pin down the external `toClassName`
normalizer on the two variant names involved and require the normalized
block name to be a single class token other than `headless`. -/
theorem tableToBlock_headless_c6 (tcn : String → String) (name : String)
    (head body foot : List (List String))
    (h1 : tcn "headless" = "headless") (h2 : tcn "" = "")
    (h3 : (' ' : Char) ∉ (tcn name).data) (h4 : tcn name ≠ "headless") :
    tableToBlock tcn name head body foot
        = makeBlock tcn name (tableContent head body foot) (tableToBlockVariants head) false ∧
      ("headless".data ∈ splitSp (blockClassAttr tcn name (tableToBlockVariants head)).data
        ↔ head = []) := by
  refine ⟨rfl, ?_⟩
  cases head with
  | nil =>
    have hv : tableToBlockVariants [] = ["headless"] := rfl
    rw [hv, blockClassAttr]
    have hvs : blockVariantStr tcn ["headless"] = "headless" := by
      rw [blockVariantStr, List.map_cons, List.map_nil, h1]
      rfl
    rw [hvs, if_neg (by decide)]
    rw [show (tcn name ++ (" " ++ "headless")).data
        = (tcn name).data ++ ' ' :: "headless".data from rfl]
    rw [splitSp_append_space _ h3]
    rw [splitSp_no_space (by decide)]
    simp
  | cons r rs =>
    have hv : tableToBlockVariants (r :: rs) = [""] := by
      rw [tableToBlockVariants, if_neg (by simp)]
    rw [hv, blockClassAttr]
    have hvs : blockVariantStr tcn [""] = "" := by
      rw [blockVariantStr, List.map_cons, List.map_nil, h2]
      rfl
    rw [hvs, if_pos rfl]
    rw [show (tcn name ++ "").data = (tcn name).data ++ [] from rfl, List.append_nil]
    rw [splitSp_no_space h3]
    constructor
    · intro hm
      rw [List.mem_singleton] at hm
      exact absurd (string_eq_of_data_eq hm.symm) h4
    · intro hcontra
      exact absurd hcontra (List.cons_ne_nil r rs)

/-- C6 witness: the theorem applied at a headless single-cell table with
the identity normalizer. -/
theorem tableToBlock_headless_c6_witness :
    tableToBlock (fun s => s) "table" [] [["c"]] []
        = makeBlock (fun s => s) "table" (tableContent [] [["c"]] [])
            (tableToBlockVariants []) false ∧
      ("headless".data
          ∈ splitSp (blockClassAttr (fun s => s) "table" (tableToBlockVariants [])).data
        ↔ ([] : List (List String)) = []) :=
  tableToBlock_headless_c6 (fun s => s) "table" [] [["c"]] [] rfl rfl (by decide) (by decide)

/-- C9: for a table node with a non-empty title and zero head rows, the
titled single-block path always applies: `tableToBlock` returns a non-empty
block named after the title, so the generic `table`-named fallback of the
`table` template is never taken for such tables. -/
theorem tableTemplate_titled_c9 (tcn : String → String) (title : String)
    (head body foot : List (List String)) (h1 : title ≠ "") (h2 : head = []) :
    tableTemplate tcn title head body foot = tableToBlock tcn title head body foot ∧
      tableToBlock tcn title head body foot ≠ "" := by
  have hne : tableToBlock tcn title head body foot ≠ "" :=
    makeBlock_ne_empty tcn title (tableContent head body foot) (tableToBlockVariants head) false
  refine ⟨?_, hne⟩
  rw [tableTemplate, if_pos ⟨h1, by rw [h2]; rfl⟩, if_pos hne]

/-- C9 witness: the theorem applied at a concrete titled headless table. -/
theorem tableTemplate_titled_c9_witness :
    tableTemplate (fun s => s) "t" [] [["c"]] []
        = tableToBlock (fun s => s) "t" [] [["c"]] [] ∧
      tableToBlock (fun s => s) "t" [] [["c"]] [] ≠ "" :=
  tableTemplate_titled_c9 (fun s => s) "t" [] [["c"]] [] (by decide) rfl

/-! ### Counting substring occurrences -/

/-- Number of positions in `l` at which `pat` occurs as a prefix of the
remaining suffix. For the tag patterns used below, which cannot overlap
themselves, this is exactly the number of occurrences of `pat` in `l`. -/
def countSub (pat : List Char) : List Char → Nat
  | [] => 0
  | c :: rest => (if pat <+: (c :: rest) then 1 else 0) + countSub pat rest

theorem countSub_nil (pat : List Char) : countSub pat [] = 0 := rfl

theorem countSub_cons (pat : List Char) (c : Char) (l : List Char) :
    countSub pat (c :: l) = (if pat <+: (c :: l) then 1 else 0) + countSub pat l := rfl

theorem not_prefix_cons_of_ne {p c : Char} {ps l : List Char} (h : p ≠ c) :
    ¬ (p :: ps <+: c :: l) := by
  intro hp
  exact h (List.cons_prefix_cons.mp hp).1

theorem countSub_cons_ne {p c : Char} (ps : List Char) (h : p ≠ c) (l : List Char) :
    countSub (p :: ps) (c :: l) = countSub (p :: ps) l := by
  rw [countSub_cons, if_neg (not_prefix_cons_of_ne h), Nat.zero_add]

/-- A pattern whose head character does not occur in `l` never occurs in `l`. -/
theorem countSub_eq_zero_of_head_not_mem {p : Char} (ps : List Char) {l : List Char}
    (h : p ∉ l) : countSub (p :: ps) l = 0 := by
  induction l with
  | nil => rfl
  | cons c rest ih =>
    have hpc : p ≠ c := fun he => h (he ▸ List.mem_cons_self c rest)
    rw [countSub_cons_ne ps hpc]
    exact ih (fun hm => h (List.mem_cons_of_mem c hm))

/-- Prepending characters that are all distinct from the pattern head does
not change the count. -/
theorem countSub_append_head_not_mem {p : Char} (ps : List Char) {pre : List Char}
    (h : p ∉ pre) (X : List Char) :
    countSub (p :: ps) (pre ++ X) = countSub (p :: ps) X := by
  induction pre with
  | nil => rw [List.nil_append]
  | cons c rest ih =>
    have hpc : p ≠ c := fun he => h (he ▸ List.mem_cons_self c rest)
    rw [List.cons_append, countSub_cons_ne ps hpc]
    exact ih (fun hm => h (List.mem_cons_of_mem c hm))

/-- For a list at least as long as the pattern, appending more on the right
does not affect whether the pattern is a prefix. -/
theorem prefix_append_iff_of_le {pat X : List Char} (Y : List Char)
    (h : pat.length ≤ X.length) : pat <+: X ++ Y ↔ pat <+: X := by
  induction pat generalizing X with
  | nil => simp
  | cons p ps ih =>
    cases X with
    | nil => simp at h
    | cons c X' =>
      rw [List.cons_append, List.cons_prefix_cons, List.cons_prefix_cons]
      have := ih (X := X') (by simpa using Nat.le_of_succ_le_succ h)
      rw [this]

/-- If the pattern reaches past the end of `A` into the appended part, `A`
itself is a prefix of the pattern. -/
theorem prefix_of_prefix_append {pat A X : List Char} (h : pat <+: A ++ X)
    (hl : A.length ≤ pat.length) : A <+: pat := by
  induction A generalizing pat with
  | nil => exact List.nil_prefix
  | cons c A' ih =>
    cases pat with
    | nil => simp at hl
    | cons p ps =>
      rw [List.cons_append, List.cons_prefix_cons] at h
      rw [List.cons_prefix_cons]
      exact ⟨h.1.symm, ih h.2 (by simpa using Nat.le_of_succ_le_succ hl)⟩

/-- No-span condition on the appended suffix: whether the pattern occurs at
a position of the (nonempty) left part does not depend on the suffix. -/
theorem prefix_append_eq_of_no_span {pat suf : List Char}
    (hk : ∀ k, 0 < k → k < pat.length → ¬ (pat.drop k <+: suf)) :
    ∀ X, X ≠ [] → (pat <+: X ++ suf ↔ pat <+: X) := by
  induction pat with
  | nil => intro X _; simp
  | cons p ps ih =>
    intro X hX
    cases X with
    | nil => exact absurd rfl hX
    | cons x X' =>
      rw [List.cons_append, List.cons_prefix_cons, List.cons_prefix_cons]
      cases X' with
      | nil =>
        cases ps with
        | nil => simp
        | cons q qs =>
          constructor
          · intro hcontra
            exfalso
            exact hk 1 Nat.one_pos (by simp) hcontra.2
          · intro hcontra
            exact absurd hcontra.2 (by simp)
      | cons y Y' =>
        have ihs := ih (fun k h0 hlen hp =>
            hk (k + 1) (Nat.succ_pos k) (Nat.succ_lt_succ hlen) hp)
          (y :: Y') (List.cons_ne_nil y Y')
        rw [ihs]

/-- Counting over an append that admits no span from the left part into
the right part: the count splits as a sum. -/
theorem countSub_append_suffix {pat suf : List Char}
    (hk : ∀ k, 0 < k → k < pat.length → ¬ (pat.drop k <+: suf)) :
    ∀ X, countSub pat (X ++ suf) = countSub pat X + countSub pat suf := by
  intro X
  induction X with
  | nil => rw [List.nil_append, countSub_nil, Nat.zero_add]
  | cons c X' ih =>
    rw [List.cons_append, countSub_cons, countSub_cons pat c X', ih]
    have heq : (pat <+: c :: (X' ++ suf)) ↔ (pat <+: c :: X') := by
      have h2 := prefix_append_eq_of_no_span hk (c :: X') (List.cons_ne_nil c X')
      rwa [List.cons_append] at h2
    rw [if_congr heq rfl rfl]
    omega

/-- Counting over an append whose left part ends in no proper pattern
prefix: the count splits as a sum. -/
theorem countSub_split_left {pat pre : List Char}
    (hk : ∀ k, 0 < k → k < pat.length → ¬ (pat.take k <:+ pre)) :
    ∀ X, countSub pat (pre ++ X) = countSub pat pre + countSub pat X := by
  induction pre with
  | nil =>
    intro X
    rw [List.nil_append, countSub_nil, Nat.zero_add]
  | cons c pre' ih =>
    intro X
    have hk' : ∀ k, 0 < k → k < pat.length → ¬ (pat.take k <:+ pre') := by
      intro k h0 hlen hcontra
      exact hk k h0 hlen (hcontra.trans (List.suffix_cons c pre'))
    rw [List.cons_append, countSub_cons, countSub_cons pat c pre', ih hk']
    have heq : (pat <+: c :: (pre' ++ X)) ↔ (pat <+: c :: pre') := by
      by_cases hlen : pat.length ≤ (c :: pre').length
      · have := prefix_append_iff_of_le (X := c :: pre') X hlen
        rwa [List.cons_append] at this
      · constructor
        · intro hcontra
          exfalso
          have hA : (c :: pre') <+: pat := by
            apply prefix_of_prefix_append (X := X)
            · rwa [← List.cons_append] at hcontra
            · omega
          have htake : pat.take (c :: pre').length = c :: pre' :=
            (List.prefix_iff_eq_take.mp hA).symm
          have hsuf : pat.take (c :: pre').length <:+ (c :: pre') := by
            rw [htake]
          exact hk (c :: pre').length (by simp) (by omega) hsuf
        · intro hcontra
          exact absurd hcontra.length_le (by omega)
    rw [if_congr heq rfl rfl]
    omega

/-! ### The plain / full-page tail of adoc2html (claim C8) -/

/-- The full-page scaffold before the inserted fragment: the part of the
template literal of docs.ts lines 421-433 preceding the interpolated
serialized tree. -/
def pageBefore : String :=
  "\n  <!DOCTYPE html>\n  <html>\n    <head>\n      <meta name=\"viewport\" content=\"width=device-width, initial-scale=1\">\n      <script src=\"/scripts/scripts.js\" type=\"module\"></script>\n      <link rel=\"stylesheet\" href=\"/styles/styles.css\">\n      <link rel=\"icon\" href=\"data:,\">\n    </head>\n    \n    <body>\n      <header></header>\n      <main>\n        "

/-- The full-page scaffold after the inserted fragment (docs.ts lines
434-438). -/
def pageAfter : String :=
  "\n      </main>\n      <footer></footer>\n    </body>\n  </html>"

/-- Model of the final return of `adoc2html` (docs.ts lines 421-438):
`fragmentHtml` stands for `toHtml(tree)`, the externally serialized result
of the list-wrapping fix-up pass — the same value in both branches. With
`plain` set the fragment is returned as is; otherwise it is embedded into
the fixed full-page scaffold. -/
def adoc2htmlTail (plain : Bool) (fragmentHtml : String) : String :=
  if plain then fragmentHtml else pageBefore ++ fragmentHtml ++ pageAfter

set_option maxRecDepth 8192 in
/-- C8: with `plain` set, `adoc2html` returns the fragment itself — so no
`<html>` or `<head>` wrapper appears (given that the fragment contains
none); with `plain` unset it returns the fixed scaffold with the very same
fragment embedded, and the result contains exactly one `<main>` opening tag
and exactly one `</main>` closing tag (given a fragment that introduces
none), whose content is that fragment. -/
theorem adoc2html_plain_c8 (fragment : String)
    (hhtml : countSub "<html>".data fragment.data = 0)
    (hhead : countSub "<head>".data fragment.data = 0)
    (hmain : countSub "<main>".data fragment.data = 0)
    (hcmain : countSub "</main>".data fragment.data = 0) :
    adoc2htmlTail true fragment = fragment ∧
    countSub "<html>".data (adoc2htmlTail true fragment).data = 0 ∧
    countSub "<head>".data (adoc2htmlTail true fragment).data = 0 ∧
    adoc2htmlTail false fragment = pageBefore ++ fragment ++ pageAfter ∧
    countSub "<main>".data (adoc2htmlTail false fragment).data = 1 ∧
    countSub "</main>".data (adoc2htmlTail false fragment).data = 1 := by
  have hdata : (adoc2htmlTail false fragment).data
      = (pageBefore.data ++ fragment.data) ++ pageAfter.data := rfl
  refine ⟨rfl, hhtml, hhead, rfl, ?_, ?_⟩
  · have hks : ∀ k, 0 < k → k < ("<main>".data).length →
        ¬ (("<main>".data).drop k <+: pageAfter.data) := by
      intro k h0 hl
      rw [show ("<main>".data).length = 6 from rfl] at hl
      interval_cases k <;> decide
    have hkp : ∀ k, 0 < k → k < ("<main>".data).length →
        ¬ (("<main>".data).take k <:+ pageBefore.data) := by
      intro k h0 hl
      rw [show ("<main>".data).length = 6 from rfl] at hl
      interval_cases k <;> decide
    rw [hdata]
    rw [countSub_append_suffix hks]
    rw [countSub_split_left hkp]
    rw [hmain]
    have h1 : countSub "<main>".data pageBefore.data = 1 := by decide
    have h2 : countSub "<main>".data pageAfter.data = 0 := by decide
    omega
  · have hks : ∀ k, 0 < k → k < ("</main>".data).length →
        ¬ (("</main>".data).drop k <+: pageAfter.data) := by
      intro k h0 hl
      rw [show ("</main>".data).length = 7 from rfl] at hl
      interval_cases k <;> decide
    have hkp : ∀ k, 0 < k → k < ("</main>".data).length →
        ¬ (("</main>".data).take k <:+ pageBefore.data) := by
      intro k h0 hl
      rw [show ("</main>".data).length = 7 from rfl] at hl
      interval_cases k <;> decide
    rw [hdata]
    rw [countSub_append_suffix hks]
    rw [countSub_split_left hkp]
    rw [hcmain]
    have h1 : countSub "</main>".data pageBefore.data = 0 := by decide
    have h2 : countSub "</main>".data pageAfter.data = 1 := by decide
    omega

/-- C8 witness: the theorem applied at a concrete fragment. -/
theorem adoc2html_plain_c8_witness :
    adoc2htmlTail true "<p>hi</p>" = "<p>hi</p>" ∧
    countSub "<html>".data (adoc2htmlTail true "<p>hi</p>").data = 0 ∧
    countSub "<head>".data (adoc2htmlTail true "<p>hi</p>").data = 0 ∧
    adoc2htmlTail false "<p>hi</p>" = pageBefore ++ "<p>hi</p>" ++ pageAfter ∧
    countSub "<main>".data (adoc2htmlTail false "<p>hi</p>").data = 1 ∧
    countSub "</main>".data (adoc2htmlTail false "<p>hi</p>").data = 1 :=
  adoc2html_plain_c8 "<p>hi</p>" (by decide) (by decide) (by decide) (by decide)

/-! ### Sections and the depth counter (claim C3) -/

/-- The optional heading of a section:
`<${tag}>${title}</${tag}>` (docs.ts line 198). -/
def sectionHeading (tag title : String) : String :=
  "<" ++ tag ++ ">" ++ title ++ "</" ++ tag ++ ">"

/-- The `content` template string of the `section` template (docs.ts lines
197-199), with `tag` being `h${level + 1}` and the child conversions
already joined. -/
def sectionContent (level : Nat) (title : String) (blockHtmls : List String) : String :=
  "\n          "
    ++ (if title ≠ "" then sectionHeading ("h" ++ Nat.repr (level + 1)) title else "")
    ++ "\n          " ++ joinSep "\n" blockHtmls

/-- The `wrapper` template string of the `section` template (docs.ts lines
194 and 201): close a still-open sibling container when the pre-call depth
is positive, open the new container, and close it only at depth zero. -/
def sectionWrapper (d : Nat) (content : String) : String :=
  let closer := if d > 0 then "</div>" else ""
  closer ++ "<div>" ++ content ++ (if closer = "" then "</div>" else "")

/-- A node as seen by the section renderer: a section (level, title,
child blocks) or any other node abstracted by the HTML it renders to —
the `section` template is the only one touching `sectionDepth`. -/
inductive SNode where
  | sec (level : Nat) (title : String) (blocks : List SNode)
  | leaf (html : String)

mutual
/-- Model of the `section` template (docs.ts lines 189-205) within
`convert`: the converter's mutable `sectionDepth` field is threaded as
explicit state (second component); the depth is read for `closer`,
incremented before converting the child blocks and decremented after. -/
def convertNode : SNode → Nat → String × Nat
  | .leaf html, d => (html, d)
  | .sec level title blocks, d =>
    let res := convertBlocks blocks (d + 1)
    (sectionWrapper d (sectionContent level title res.1), res.2 - 1)

/-- `blocks.map((block) => this.convert(block))` (docs.ts line 199) with
the depth state threaded left to right. -/
def convertBlocks : List SNode → Nat → List String × Nat
  | [], d => ([], d)
  | b :: bs, d =>
    let r := convertNode b d
    let rs := convertBlocks bs r.2
    (r.1 :: rs.1, rs.2)
end

mutual
theorem convertNode_depth (n : SNode) (d : Nat) : (convertNode n d).2 = d := by
  cases n with
  | leaf html => simp [convertNode]
  | sec level title blocks =>
    simp only [convertNode]
    rw [convertBlocks_depth blocks (d + 1)]
    omega

theorem convertBlocks_depth (l : List SNode) (d : Nat) : (convertBlocks l d).2 = d := by
  cases l with
  | nil => simp [convertBlocks]
  | cons b bs =>
    simp only [convertBlocks]
    rw [convertBlocks_depth bs ((convertNode b d).2), convertNode_depth b d]
end

theorem digitChar_ne_lt (m : Nat) : Nat.digitChar m ≠ '<' := by
  rcases Nat.lt_or_ge m 16 with h16 | h16
  · interval_cases m <;> decide
  · unfold Nat.digitChar
    repeat rw [if_neg (by omega)]
    decide

theorem toDigitsCore_no_lt (f : Nat) : ∀ (n : Nat) (acc : List Char),
    (∀ c ∈ acc, c ≠ '<') → ∀ c ∈ Nat.toDigitsCore 10 f n acc, c ≠ '<' := by
  induction f with
  | zero =>
    intro n acc hacc c hc
    exact hacc c hc
  | succ f ih =>
    intro n acc hacc c hc
    simp only [Nat.toDigitsCore] at hc
    split at hc
    · rcases List.mem_cons.mp hc with h1 | h2
      · exact h1 ▸ digitChar_ne_lt (n % 10)
      · exact hacc c h2
    · refine ih _ _ ?_ c hc
      intro c' hc'
      rcases List.mem_cons.mp hc' with h1 | h2
      · exact h1 ▸ digitChar_ne_lt (n % 10)
      · exact hacc c' h2

/-- The decimal rendering of a natural number contains no `<`. -/
theorem repr_no_lt (n : Nat) : '<' ∉ (Nat.repr n).data := by
  intro hmem
  exact toDigitsCore_no_lt (n + 1) n []
    (fun c hc => absurd hc (List.not_mem_nil c)) '<' hmem rfl

theorem countSub_cons_skip {pat : List Char} {c : Char} {l : List Char}
    (h : ¬ (pat <+: c :: l)) : countSub pat (c :: l) = countSub pat l := by
  rw [countSub_cons, if_neg h, Nat.zero_add]

/-- A span out of the left part of an append cannot begin when the suffix
starts with a character that does not occur in the tail of the pattern. -/
theorem no_span_cons {p a : Char} {p2 T : List Char} (ha : a ∉ p2) :
    ∀ k, 0 < k → k < (p :: p2).length → ¬ ((p :: p2).drop k <+: a :: T) := by
  intro k h0 hl hp
  obtain ⟨k', rfl⟩ : ∃ k', k = k' + 1 := ⟨k - 1, by omega⟩
  rw [List.drop_succ_cons] at hp
  cases hdrop : p2.drop k' with
  | nil =>
    have hlen := congrArg List.length hdrop
    rw [List.length_drop] at hlen
    simp only [List.length_cons] at hl
    simp at hlen
    omega
  | cons b bs =>
    rw [hdrop] at hp
    have hb : b = a := (List.cons_prefix_cons.mp hp).1
    have hbmem : b ∈ p2 :=
      List.mem_of_mem_drop (hdrop ▸ List.mem_cons_self b bs)
    exact ha (hb ▸ hbmem)

/-- Converting a list of non-section leaves returns their HTML unchanged
and leaves the depth alone. -/
theorem convertBlocks_leaves (leaves : List String) (d : Nat) :
    convertBlocks (leaves.map SNode.leaf) d = (leaves, d) := by
  induction leaves with
  | nil => simp [convertBlocks]
  | cons h rest ih =>
    simp only [List.map_cons, convertBlocks, convertNode, ih]

/-- Counting a head-`<` pattern in a newline-join of occurrence-free parts
gives zero, provided the pattern has no newline in its tail. -/
theorem countSub_joinSep_zero (p2 : List Char) (hnl : '\n' ∉ p2) (leaves : List String)
    (hlv : ∀ h ∈ leaves, countSub ('<' :: p2) h.data = 0) :
    countSub ('<' :: p2) (joinSep "\n" leaves).data = 0 := by
  induction leaves with
  | nil => rfl
  | cons h rest ih =>
    cases rest with
    | nil => exact hlv h (List.mem_cons_self h [])
    | cons h2 r2 =>
      have hd : (joinSep "\n" (h :: h2 :: r2)).data
          = h.data ++ ('\n' :: (joinSep "\n" (h2 :: r2)).data) := by
        show ((h ++ "\n") ++ joinSep "\n" (h2 :: r2)).data = _
        rw [strData_append, strData_append]
        rw [show ("\n" : String).data = ['\n'] from rfl]
        rw [List.append_assoc]
        rfl
      rw [hd]
      rw [countSub_append_suffix (no_span_cons hnl)]
      rw [hlv h (List.mem_cons_self h (h2 :: r2)), Nat.zero_add]
      rw [countSub_cons_ne p2 (by decide)]
      exact ih (fun h' hm => hlv h' (List.mem_cons_of_mem h hm))

/-- A head-`<` pattern that matches neither at a heading start, nor at a
closing-tag start, nor inside the decimal level, and has no occurrence in
the title, is not found anywhere in a section heading. -/
theorem countSub_sectionHeading (p2 : List Char) (level : Nat) (title : String) (Z : List Char)
    (hh1 : ∀ T : List Char, ¬ (('<' :: p2) <+: '<' :: 'h' :: T))
    (hh2 : ∀ T : List Char, ¬ (('<' :: p2) <+: '<' :: '/' :: 'h' :: T))
    (hlt : '<' ∉ p2)
    (htt : countSub ('<' :: p2) title.data = 0) :
    countSub ('<' :: p2) ((sectionHeading ("h" ++ Nat.repr (level + 1)) title).data ++ Z)
      = countSub ('<' :: p2) Z := by
  have hdata : (sectionHeading ("h" ++ Nat.repr (level + 1)) title).data ++ Z
      = '<' :: 'h' :: ((Nat.repr (level + 1)).data
          ++ '>' :: (title.data
            ++ '<' :: '/' :: 'h' :: ((Nat.repr (level + 1)).data ++ '>' :: Z))) := by
    simp only [sectionHeading, strData_append]
    simp only [List.cons_append, List.nil_append, List.append_assoc]
  rw [hdata]
  rw [countSub_cons_skip (hh1 _)]
  rw [countSub_cons_ne p2 (show ('<' : Char) ≠ 'h' from by decide)]
  rw [countSub_append_head_not_mem p2 (repr_no_lt _)]
  rw [countSub_cons_ne p2 (show ('<' : Char) ≠ '>' from by decide)]
  rw [countSub_append_suffix (no_span_cons hlt)]
  rw [htt, Nat.zero_add]
  rw [countSub_cons_skip (hh2 _)]
  rw [countSub_cons_ne p2 (show ('<' : Char) ≠ '/' from by decide)]
  rw [countSub_cons_ne p2 (show ('<' : Char) ≠ 'h' from by decide)]
  rw [countSub_append_head_not_mem p2 (repr_no_lt _)]
  rw [countSub_cons_ne p2 (show ('<' : Char) ≠ '>' from by decide)]

/-- A head-`<` pattern occurring neither in the title nor in any leaf
rendering (and unable to match at the heading positions) does not occur in
the assembled section content. -/
theorem countSub_sectionContent (p2 : List Char) (level : Nat) (title : String)
    (leaves : List String)
    (hh1 : ∀ T : List Char, ¬ (('<' :: p2) <+: '<' :: 'h' :: T))
    (hh2 : ∀ T : List Char, ¬ (('<' :: p2) <+: '<' :: '/' :: 'h' :: T))
    (hlt : '<' ∉ p2) (hnl : '\n' ∉ p2)
    (htt : countSub ('<' :: p2) title.data = 0)
    (hle : ∀ h ∈ leaves, countSub ('<' :: p2) h.data = 0) :
    countSub ('<' :: p2) (sectionContent level title leaves).data = 0 := by
  have hcd : (sectionContent level title leaves).data
      = "\n          ".data
        ++ ((if title ≠ "" then sectionHeading ("h" ++ Nat.repr (level + 1)) title else "").data
          ++ ("\n          ".data ++ (joinSep "\n" leaves).data)) := by
    simp only [sectionContent, strData_append, List.append_assoc]
  rw [hcd]
  rw [countSub_append_head_not_mem p2 (show '<' ∉ ("\n          ").data from by decide)]
  by_cases h0 : title = ""
  · rw [if_neg (by simp [h0])]
    rw [show ("" : String).data = ([] : List Char) from rfl, List.nil_append]
    rw [countSub_append_head_not_mem p2 (show '<' ∉ ("\n          ").data from by decide)]
    exact countSub_joinSep_zero p2 hnl leaves hle
  · rw [if_pos h0]
    rw [countSub_sectionHeading p2 level title _ hh1 hh2 hlt htt]
    rw [countSub_append_head_not_mem p2 (show '<' ∉ ("\n          ").data from by decide)]
    exact countSub_joinSep_zero p2 hnl leaves hle

/-- C3: converting any node at any starting depth `d` restores the
converter's `sectionDepth` to exactly `d` when the call returns; and a
section converted at depth 0 whose subtree has no nested sections (all
blocks are leaves) renders exactly one opening container `<div>` and
exactly one matching `</div>`, provided the title and the leaf renderings
contribute no container tags of their own. -/
theorem section_depth_container_c3 :
    (∀ (n : SNode) (d : Nat), (convertNode n d).2 = d) ∧
    (∀ (level : Nat) (title : String) (leaves : List String),
      countSub "<div>".data title.data = 0 →
      countSub "</div>".data title.data = 0 →
      (∀ h ∈ leaves, countSub "<div>".data h.data = 0 ∧ countSub "</div>".data h.data = 0) →
      countSub "<div>".data
          ((convertNode (SNode.sec level title (leaves.map SNode.leaf)) 0).1).data = 1 ∧
      countSub "</div>".data
          ((convertNode (SNode.sec level title (leaves.map SNode.leaf)) 0).1).data = 1) := by
  constructor
  · exact convertNode_depth
  · intro level title leaves ht1 ht2 hlv
    have hrender : (convertNode (SNode.sec level title (leaves.map SNode.leaf)) 0).1
        = sectionWrapper 0 (sectionContent level title leaves) := by
      simp only [convertNode, convertBlocks_leaves]
    have hw : (sectionWrapper 0 (sectionContent level title leaves)).data
        = "<div>".data ++ ((sectionContent level title leaves).data ++ "</div>".data) := by
      show ((("" ++ "<div>") ++ sectionContent level title leaves) ++ "</div>").data = _
      simp only [strData_append]
      simp only [List.append_assoc, List.nil_append]
    rw [hrender, hw]
    constructor
    · have hkp : ∀ k, 0 < k → k < ("<div>".data).length →
          ¬ (("<div>".data).take k <:+ "<div>".data) := by
        intro k hk0 hkl
        rw [show ("<div>".data).length = 5 from rfl] at hkl
        interval_cases k <;> decide
      have hks : ∀ k, 0 < k → k < ("<div>".data).length →
          ¬ (("<div>".data).drop k <+: "</div>".data) := by
        intro k hk0 hkl
        rw [show ("<div>".data).length = 5 from rfl] at hkl
        interval_cases k <;> decide
      have hc : countSub "<div>".data (sectionContent level title leaves).data = 0 :=
        countSub_sectionContent ['d', 'i', 'v', '>'] level title leaves
          (fun T hp => absurd
            (List.cons_prefix_cons.mp (List.cons_prefix_cons.mp hp).2).1 (by decide))
          (fun T hp => absurd
            (List.cons_prefix_cons.mp (List.cons_prefix_cons.mp hp).2).1 (by decide))
          (by decide) (by decide) ht1 (fun h hm => (hlv h hm).1)
      rw [countSub_split_left hkp, countSub_append_suffix hks, hc]
      rw [show countSub "<div>".data "<div>".data = 1 from by decide]
      rw [show countSub "<div>".data "</div>".data = 0 from by decide]
    · have hkp : ∀ k, 0 < k → k < ("</div>".data).length →
          ¬ (("</div>".data).take k <:+ "<div>".data) := by
        intro k hk0 hkl
        rw [show ("</div>".data).length = 6 from rfl] at hkl
        interval_cases k <;> decide
      have hks : ∀ k, 0 < k → k < ("</div>".data).length →
          ¬ (("</div>".data).drop k <+: "</div>".data) := by
        intro k hk0 hkl
        rw [show ("</div>".data).length = 6 from rfl] at hkl
        interval_cases k <;> decide
      have hc : countSub "</div>".data (sectionContent level title leaves).data = 0 :=
        countSub_sectionContent ['/', 'd', 'i', 'v', '>'] level title leaves
          (fun T hp => absurd
            (List.cons_prefix_cons.mp (List.cons_prefix_cons.mp hp).2).1 (by decide))
          (fun T hp => absurd
            (List.cons_prefix_cons.mp
              (List.cons_prefix_cons.mp (List.cons_prefix_cons.mp hp).2).2).1 (by decide))
          (by decide) (by decide) ht2 (fun h hm => (hlv h hm).2)
      rw [countSub_split_left hkp, countSub_append_suffix hks, hc]
      rw [show countSub "</div>".data "<div>".data = 0 from by decide]
      rw [show countSub "</div>".data "</div>".data = 1 from by decide]

/-- C3 witness: the count statement applied at a concrete one-leaf section
with a title, at depth 0. -/
theorem section_depth_container_c3_witness :
    countSub "<div>".data
        ((convertNode (SNode.sec 1 "T" (["<p>x</p>"].map SNode.leaf)) 0).1).data = 1 ∧
    countSub "</div>".data
        ((convertNode (SNode.sec 1 "T" (["<p>x</p>"].map SNode.leaf)) 0).1).data = 1 :=
  section_depth_container_c3.2 1 "T" ["<p>x</p>"] (by decide) (by decide) (by decide)
